import Mathlib

/-!
Shallow embedding of the gap buffer `GapVec<T>` from `src/src/lib.rs`.

Raw storage is a list of slots; a slot holds `some v` when it was
initialized with a live value `v`, and `none` when it is uninitialized
memory (reading such a slot in the Rust source is undefined behaviour;
the embedding tracks it as `none`). The fields `gapStart` and `gapEnd`
embed `gap.start` and `gap.end` of the source struct; the backing
allocation size `capacity` is the length of the slot list.
-/

/-- State of a `GapVec<T>`: the backing slots plus the gap range. -/
structure GapVec (α : Type) where
  slots : List (Option α)
  gapStart : Nat
  gapEnd : Nat
deriving DecidableEq, Repr

namespace GapVec

variable {α : Type}

/-- Embeds `GapVec::new`: capacity 0, gap `0..0`. -/
def new : GapVec α := ⟨[], 0, 0⟩

/-- Embeds `GapVec::with_capacity`: allocates `capacity` uninitialized
slots and keeps the gap at `0..0`, exactly as the source writes it. -/
def with_capacity (capacity : Nat) : GapVec α :=
  ⟨List.replicate capacity none, 0, 0⟩

/-- Embeds `GapVec::capacity`: size of the backing allocation. -/
def capacity (b : GapVec α) : Nat := b.slots.length

/-- Embeds `Range::len` applied to the gap: `gap.end - gap.start`. -/
def gapLen (b : GapVec α) : Nat := b.gapEnd - b.gapStart

/-- Embeds `GapVec::len`: `self.capacity() - self.gap.len()`. -/
def len (b : GapVec α) : Nat := capacity b - gapLen b

/-- Embeds `GapVec::position`: `self.gap.start`. -/
def position (b : GapVec α) : Nat := b.gapStart

/-- Embeds `GapVec::index_to_raw`. -/
def index_to_raw (b : GapVec α) (index : Nat) : Nat :=
  if index < b.gapStart then index else index + gapLen b

/-- Embeds `GapVec::get`: `some` of the slot content when the raw offset
is below `capacity` (the content itself is `none` when that slot is
uninitialized memory). -/
def get (b : GapVec α) (index : Nat) : Option (Option α) :=
  let raw := index_to_raw b index
  if raw < capacity b then some (b.slots.getD raw none) else none

/-- Embeds `ptr::copy` (memmove semantics): writes to offsets
`[dst, dst + n)` the `n` values read from `[src, src + n)` of the
original list, reading the whole source before any write; a read past
the end of the allocation yields uninitialized junk (`none`). -/
def copyWithin (l : List (Option α)) (src dst n : Nat) : List (Option α) :=
  l.take dst ++ (l.drop src ++ List.replicate n none).take n ++ l.drop (dst + n)

/-- Embeds `GapVec::set_position`; `none` models the panic on
`pos > self.len()`. Note that the right-move branch copies from raw
offset `pos`, exactly as the source line
`ptr::copy(self.space(pos), self.space_mut(gap.start), distance)` does. -/
def set_position (b : GapVec α) (pos : Nat) : Option (GapVec α) :=
  if pos > len b then none
  else some <|
    if pos > b.gapStart then
      { slots := copyWithin b.slots pos b.gapStart (pos - b.gapStart),
        gapStart := pos, gapEnd := pos + gapLen b }
    else if pos < b.gapStart then
      { slots := copyWithin b.slots pos (b.gapEnd - (b.gapStart - pos)) (b.gapStart - pos),
        gapStart := pos, gapEnd := pos + gapLen b }
    else
      { slots := b.slots, gapStart := pos, gapEnd := pos + gapLen b }

/-- Embeds `GapVec::enlarge_gap`. -/
def enlarge_gap (b : GapVec α) : GapVec α :=
  let new_capacity := capacity b * 2
  let new_capacity := if new_capacity = 0 then 4 else new_capacity
  let after_gap := capacity b - b.gapEnd
  let new_gap_end := new_capacity - after_gap
  { slots := b.slots.take b.gapStart
      ++ List.replicate (new_gap_end - b.gapStart) none
      ++ b.slots.drop b.gapEnd,
    gapStart := b.gapStart,
    gapEnd := new_gap_end }

/-- Embeds `GapVec::insert`. -/
def insert (b : GapVec α) (element : α) : GapVec α :=
  let b := if gapLen b = 0 then enlarge_gap b else b
  { slots := b.slots.set b.gapStart (some element),
    gapStart := b.gapStart + 1,
    gapEnd := b.gapEnd }

/-- Embeds `GapVec::insert_iter`: repeated `insert`. -/
def insert_iter (b : GapVec α) (l : List α) : GapVec α := l.foldl insert b

/-- Embeds `GapVec::remove`: the first component is the Rust return
value (outer `none` = Rust `None`); the second is the buffer after. -/
def remove (b : GapVec α) : Option (Option α) × GapVec α :=
  if b.gapEnd = capacity b then (none, b)
  else (some (b.slots.getD b.gapEnd none),
        { slots := b.slots, gapStart := b.gapStart, gapEnd := b.gapEnd + 1 })

/-- Repeated `remove`, collecting the returned elements in order. -/
def removeN : Nat → GapVec α → List (Option α) × GapVec α
  | 0, b => ([], b)
  | n + 1, b =>
    match remove b with
    | (none, b2) => ([], b2)
    | (some x, b2) =>
      let p := removeN n b2
      (x :: p.1, p.2)

/-- The logical element sequence: slots below `gapStart` followed by the
slots from `gapEnd` on, in increasing raw order (the order used by the
`Debug` impl and the iterator of the source). -/
def logical (b : GapVec α) : List (Option α) :=
  b.slots.take b.gapStart ++ b.slots.drop b.gapEnd

/-- The structural gap invariant `gap_start <= gap_end <= capacity`. -/
def Inv (b : GapVec α) : Prop :=
  b.gapStart ≤ b.gapEnd ∧ b.gapEnd ≤ capacity b

instance (b : GapVec α) : Decidable (Inv b) :=
  inferInstanceAs (Decidable (_ ∧ _))

/-- C2: the claim says `with_capacity n` yields gap `[0, n)` and logical
length 0; the code instead leaves the gap at `[0, 0)`, so `len()` is `n`.
This theorem evaluates the code at the failing input `n = 10`: the gap is
empty and `len` is 10, contradicting the claim (and the doc comment of
`with_capacity` itself, which promises a zero length). -/
theorem with_capacity_gap_empty :
    (with_capacity 10 : GapVec Nat).gapStart = 0
    ∧ (with_capacity 10 : GapVec Nat).gapEnd = 0
    ∧ capacity (with_capacity 10 : GapVec Nat) = 10
    ∧ len (with_capacity 10 : GapVec Nat) = 10
    ∧ len (with_capacity 10 : GapVec Nat) ≠ 0 := by decide

/-- C3: the concrete scenario. Starting empty, `insert 1`, `insert 2`,
`insert 3` gives logical sequence `[1,2,3]` with cursor 3; `set_position 0`
moves the cursor to 0; `remove` returns 1 leaving `[2,3]` with cursor 0;
`insert 9` gives `[9,2,3]` with cursor 1. Every intermediate state is
spelled out and checked by evaluation. -/
theorem insert_remove_scenario :
    insert_iter (new : GapVec Nat) [1, 2, 3] = ⟨[some 1, some 2, some 3, none], 3, 4⟩
    ∧ logical (⟨[some 1, some 2, some 3, none], 3, 4⟩ : GapVec Nat) = [some 1, some 2, some 3]
    ∧ position (⟨[some 1, some 2, some 3, none], 3, 4⟩ : GapVec Nat) = 3
    ∧ set_position (⟨[some 1, some 2, some 3, none], 3, 4⟩ : GapVec Nat) 0
        = some ⟨[some 1, some 1, some 2, some 3], 0, 1⟩
    ∧ position (⟨[some 1, some 1, some 2, some 3], 0, 1⟩ : GapVec Nat) = 0
    ∧ remove (⟨[some 1, some 1, some 2, some 3], 0, 1⟩ : GapVec Nat)
        = (some (some 1), ⟨[some 1, some 1, some 2, some 3], 0, 2⟩)
    ∧ logical (⟨[some 1, some 1, some 2, some 3], 0, 2⟩ : GapVec Nat) = [some 2, some 3]
    ∧ position (⟨[some 1, some 1, some 2, some 3], 0, 2⟩ : GapVec Nat) = 0
    ∧ insert (⟨[some 1, some 1, some 2, some 3], 0, 2⟩ : GapVec Nat) 9
        = ⟨[some 9, some 1, some 2, some 3], 1, 2⟩
    ∧ logical (⟨[some 9, some 1, some 2, some 3], 1, 2⟩ : GapVec Nat) = [some 9, some 2, some 3]
    ∧ position (⟨[some 9, some 1, some 2, some 3], 1, 2⟩ : GapVec Nat) = 1 := by decide

/-- C1: evaluation at a failing input. The buffer holding logical `[1,2,3]`
with the gap at `[0,1)` (reached from empty by inserting 1, 2, 3 and then
`set_position 0`) is corrupted by `set_position 2`: the source copies the
`d = 2` elements from raw offset `pos = 2` instead of from `gap_end = 1`,
so the logical sequence becomes `[2,3,3]` instead of staying `[1,2,3]` —
the order of the logical element sequence is not preserved, contradicting
the claim. -/
theorem set_position_right_move_corrupts :
    set_position (insert_iter (new : GapVec Nat) [1, 2, 3]) 0
      = some ⟨[some 1, some 1, some 2, some 3], 0, 1⟩
    ∧ logical (⟨[some 1, some 1, some 2, some 3], 0, 1⟩ : GapVec Nat)
      = [some 1, some 2, some 3]
    ∧ set_position (⟨[some 1, some 1, some 2, some 3], 0, 1⟩ : GapVec Nat) 2
      = some ⟨[some 2, some 3, some 2, some 3], 2, 3⟩
    ∧ logical (⟨[some 2, some 3, some 2, some 3], 2, 3⟩ : GapVec Nat)
      = [some 2, some 3, some 3]
    ∧ ([some 2, some 3, some 3] : List (Option Nat)) ≠ [some 1, some 2, some 3] := by decide

/-- C5 counterexample: at old capacity 1 the growth triggered by `insert`
(the gap of `with_capacity 1` is empty) produces capacity 2, while the
claimed formula `max 4 (oldCapacity * 2)` gives 4. -/
theorem enlarge_capacity_one_cex :
    gapLen (with_capacity 1 : GapVec Nat) = 0
    ∧ capacity (insert (with_capacity 1 : GapVec Nat) 7) = 2
    ∧ max 4 (capacity (with_capacity 1 : GapVec Nat) * 2) = 4
    ∧ (2 : Nat) ≠ 4 := by decide

/-- C6: `get logicalIndex` translates the logical index to the raw slot
`logicalIndex` when below `gapStart`, and `logicalIndex + gapLen`
otherwise, and returns the content of that raw slot when it is below
`capacity`, else `none`. -/
theorem get_raw_translation (b : GapVec α) (i : Nat) :
    get b i
      = if (if i < b.gapStart then i else i + gapLen b) < capacity b
        then some (b.slots.getD (if i < b.gapStart then i else i + gapLen b) none)
        else none := rfl

/-- C4: `remove` returns `none` exactly when `gap_end = capacity`;
otherwise it returns `some` of the content of raw slot `gap_end`,
advances `gap_end` by one, and leaves `gap_start` and the slots
unchanged. -/
theorem remove_spec (b : GapVec α) :
    ((remove b).1 = none ↔ b.gapEnd = capacity b)
    ∧ (b.gapEnd ≠ capacity b →
        (remove b).1 = some (b.slots.getD b.gapEnd none)
        ∧ (remove b).2 = ⟨b.slots, b.gapStart, b.gapEnd + 1⟩) := by
  by_cases h : b.gapEnd = capacity b <;> simp [remove, h]

/-- Witness for C4 at the concrete buffer `⟨[some 7], 0, 0⟩`, whose
`gap_end` is 0 while its capacity is 1. -/
theorem remove_spec_witness :
    (⟨[some 7], 0, 0⟩ : GapVec Nat).gapEnd ≠ capacity (⟨[some 7], 0, 0⟩ : GapVec Nat)
    ∧ (remove (⟨[some 7], 0, 0⟩ : GapVec Nat)).1
        = some ((⟨[some 7], 0, 0⟩ : GapVec Nat).slots.getD 0 none)
    ∧ (remove (⟨[some 7], 0, 0⟩ : GapVec Nat)).2 = ⟨[some 7], 0, 1⟩ :=
  ⟨by decide,
   ((remove_spec (⟨[some 7], 0, 0⟩ : GapVec Nat)).2 (by decide)).1,
   ((remove_spec (⟨[some 7], 0, 0⟩ : GapVec Nat)).2 (by decide)).2⟩

/-- C8: `set_position pos` succeeds (returns a new state rather than
panicking) for every `pos ≤ len`, and for every `pos > len` it fails with
the panic, modelled as `none`: the bounds check precedes any mutation in
the source, so no mutated state exists on the panicking path. -/
theorem set_position_bounds (b : GapVec α) (pos : Nat) :
    (pos ≤ len b → (set_position b pos).isSome = true)
    ∧ (len b < pos → set_position b pos = none) := by
  constructor <;> intro h
  · rw [set_position, if_neg (by omega)]
    simp
  · rw [set_position, if_pos h]

/-- Witness for C8: on the buffer `⟨[some 5], 1, 1⟩` of length 1,
`set_position 0` succeeds and `set_position 2` panics. -/
theorem set_position_bounds_witness :
    (set_position (⟨[some 5], 1, 1⟩ : GapVec Nat) 0).isSome = true
    ∧ set_position (⟨[some 5], 1, 1⟩ : GapVec Nat) 2 = none :=
  ⟨(set_position_bounds (⟨[some 5], 1, 1⟩ : GapVec Nat) 0).1 (by decide),
   (set_position_bounds (⟨[some 5], 1, 1⟩ : GapVec Nat) 2).2 (by decide)⟩

theorem length_copyWithin (l : List (Option α)) (src dst n : Nat)
    (h : dst + n ≤ l.length) : (copyWithin l src dst n).length = l.length := by
  simp only [copyWithin, List.length_append, List.length_take, List.length_drop,
    List.length_replicate]
  omega

theorem enlarge_gap_shape (b : GapVec α)
    (h1 : b.gapStart ≤ b.gapEnd) (h2 : b.gapEnd ≤ capacity b) :
    capacity (enlarge_gap b) = (if capacity b = 0 then 4 else capacity b * 2)
    ∧ (enlarge_gap b).gapStart = b.gapStart
    ∧ (enlarge_gap b).gapEnd
        = (if capacity b = 0 then 4 else capacity b * 2) - (capacity b - b.gapEnd)
    ∧ b.gapStart < (enlarge_gap b).gapEnd := by
  simp only [capacity] at h2 ⊢
  simp only [enlarge_gap, capacity, List.length_append, List.length_take,
    List.length_replicate, List.length_drop]
  by_cases hL : b.slots.length = 0 <;> simp [hL] <;> omega

theorem set_position_inv (b : GapVec α) (pos : Nat) (b2 : GapVec α)
    (h1 : b.gapStart ≤ b.gapEnd) (h2 : b.gapEnd ≤ capacity b)
    (h : set_position b pos = some b2) : Inv b2 := by
  simp only [capacity] at h2
  rw [set_position] at h
  split at h
  · exact absurd h (by simp)
  · rename_i hle
    have hpos : pos ≤ len b := by omega
    simp only [len, gapLen, capacity] at hpos
    simp only [Option.some.injEq] at h
    subst h
    split
    · rename_i hgt
      refine ⟨Nat.le_add_right _ _, ?_⟩
      have hcw : (copyWithin b.slots pos b.gapStart (pos - b.gapStart)).length
          = b.slots.length := length_copyWithin _ _ _ _ (by omega)
      simp only [Inv, capacity, gapLen, hcw]
      omega
    · split
      · rename_i hlt
        refine ⟨Nat.le_add_right _ _, ?_⟩
        have hcw : (copyWithin b.slots pos (b.gapEnd - (b.gapStart - pos))
            (b.gapStart - pos)).length = b.slots.length :=
          length_copyWithin _ _ _ _ (by omega)
        simp only [Inv, capacity, gapLen, hcw]
        omega
      · refine ⟨Nat.le_add_right _ _, ?_⟩
        simp only [Inv, capacity, gapLen]
        omega

theorem insert_inv (b : GapVec α) (x : α) (hb : Inv b) : Inv (insert b x) := by
  obtain ⟨h1, h2⟩ := hb
  have key : ∀ c : GapVec α, c.gapStart < c.gapEnd → c.gapEnd ≤ capacity c →
      Inv (⟨c.slots.set c.gapStart (some x), c.gapStart + 1, c.gapEnd⟩ : GapVec α) := by
    intro c hc1 hc2
    exact ⟨hc1, by simpa [capacity, List.length_set] using hc2⟩
  simp only [insert]
  by_cases h0 : gapLen b = 0
  · rw [if_pos h0]
    obtain ⟨hc, hs, he, hlt⟩ := enlarge_gap_shape b h1 h2
    refine key _ ?_ ?_
    · rw [hs]; exact hlt
    · rw [he, hc]; omega
  · rw [if_neg h0]
    refine key _ ?_ h2
    simp only [gapLen] at h0
    omega

theorem insert_iter_inv (b : GapVec α) (l : List α) (hb : Inv b) :
    Inv (insert_iter b l) := by
  induction l generalizing b with
  | nil => exact hb
  | cons x xs ih => exact ih (insert b x) (insert_inv b x hb)

theorem remove_inv (b : GapVec α) (hb : Inv b) : Inv (remove b).2 := by
  obtain ⟨h1, h2⟩ := hb
  simp only [capacity] at h2
  rw [remove]
  split
  · exact ⟨h1, h2⟩
  · rename_i h
    simp only [capacity] at h
    refine ⟨?_, ?_⟩
    · show b.gapStart ≤ b.gapEnd + 1
      omega
    · show b.gapEnd + 1 ≤ capacity (⟨b.slots, b.gapStart, b.gapEnd + 1⟩ : GapVec α)
      simp only [capacity]
      omega

/-- C9: the structural invariant `gap_start <= gap_end <= capacity` holds
after every public operation: `new`, `with_capacity`, `set_position` when
it returns (its precondition held), `insert`, `insert_iter` and `remove`
all produce invariant states (from an invariant state where the operation
takes one); `get` does not mutate the buffer. -/
theorem public_ops_preserve_inv (n : Nat) (b b2 : GapVec α) (x : α)
    (l : List α) (pos : Nat) (hb : Inv b) :
    Inv (new : GapVec α)
    ∧ Inv (with_capacity n : GapVec α)
    ∧ (set_position b pos = some b2 → Inv b2)
    ∧ Inv (insert b x)
    ∧ Inv (insert_iter b l)
    ∧ Inv (remove b).2 :=
  ⟨⟨Nat.le_refl 0, Nat.le_refl 0⟩,
   ⟨Nat.le_refl 0, by simp [with_capacity, capacity]⟩,
   fun h => set_position_inv b pos b2 hb.1 hb.2 h,
   insert_inv b x hb,
   insert_iter_inv b l hb,
   remove_inv b hb⟩

/-- Witness for C9 at concrete inputs: buffer `⟨[some 1], 1, 1⟩`
satisfies the invariant, and all the operations preserve it. -/
theorem public_ops_preserve_inv_witness :
    Inv (new : GapVec Nat)
    ∧ Inv (with_capacity 3 : GapVec Nat)
    ∧ (set_position (⟨[some 1], 1, 1⟩ : GapVec Nat) 0 = some ⟨[some 1], 0, 1⟩
        → Inv (⟨[some 1], 0, 1⟩ : GapVec Nat))
    ∧ Inv (insert (⟨[some 1], 1, 1⟩ : GapVec Nat) 2)
    ∧ Inv (insert_iter (⟨[some 1], 1, 1⟩ : GapVec Nat) [4, 5])
    ∧ Inv (remove (⟨[some 1], 1, 1⟩ : GapVec Nat)).2 :=
  public_ops_preserve_inv 3 (⟨[some 1], 1, 1⟩ : GapVec Nat)
    (⟨[some 1], 0, 1⟩ : GapVec Nat) 2 [4, 5] 0 (by decide)

/-- C5 (amended): whenever `insert` triggers growth (the gap is empty),
the new capacity equals `oldCapacity * 2`, except that it is 4 when
`oldCapacity = 0`; afterwards the gap is
`[gap_start, newCapacity - (oldCapacity - oldGapEnd))`, so the cursor
position `gap_start` is numerically unchanged. -/
theorem enlarge_gap_doubles (b : GapVec α) (_h0 : gapLen b = 0)
    (h1 : b.gapStart ≤ b.gapEnd) (h2 : b.gapEnd ≤ capacity b) :
    capacity (enlarge_gap b) = (if capacity b = 0 then 4 else capacity b * 2)
    ∧ (enlarge_gap b).gapStart = b.gapStart
    ∧ (enlarge_gap b).gapEnd = capacity (enlarge_gap b) - (capacity b - b.gapEnd) := by
  obtain ⟨hc, hs, he, _⟩ := enlarge_gap_shape b h1 h2
  exact ⟨hc, hs, by rw [hc]; exact he⟩

/-- Witness for C5 (amended) at the buffer `⟨[some 1, some 2], 2, 2⟩`:
capacity 2, empty gap at the end; growth yields capacity 4 with the gap
`[2, 4)` and the cursor still at 2. -/
theorem enlarge_gap_doubles_witness :
    gapLen (⟨[some 1, some 2], 2, 2⟩ : GapVec Nat) = 0
    ∧ capacity (enlarge_gap (⟨[some 1, some 2], 2, 2⟩ : GapVec Nat))
        = (if capacity (⟨[some 1, some 2], 2, 2⟩ : GapVec Nat) = 0 then 4
           else capacity (⟨[some 1, some 2], 2, 2⟩ : GapVec Nat) * 2)
    ∧ (enlarge_gap (⟨[some 1, some 2], 2, 2⟩ : GapVec Nat)).gapStart = 2
    ∧ (enlarge_gap (⟨[some 1, some 2], 2, 2⟩ : GapVec Nat)).gapEnd
        = capacity (enlarge_gap (⟨[some 1, some 2], 2, 2⟩ : GapVec Nat))
          - (capacity (⟨[some 1, some 2], 2, 2⟩ : GapVec Nat) - 2) :=
  ⟨by decide,
   (enlarge_gap_doubles (⟨[some 1, some 2], 2, 2⟩ : GapVec Nat)
      (by decide) (by decide) (by decide)).1,
   (enlarge_gap_doubles (⟨[some 1, some 2], 2, 2⟩ : GapVec Nat)
      (by decide) (by decide) (by decide)).2.1,
   (enlarge_gap_doubles (⟨[some 1, some 2], 2, 2⟩ : GapVec Nat)
      (by decide) (by decide) (by decide)).2.2⟩

/-- C10: for every buffer satisfying the gap invariant and every index,
`get` returns `some` (a Rust `Some` reference) exactly when the index is
below the logical length, and the translated raw offset never falls
inside the gap interval `[gap_start, gap_end)`. -/
theorem get_some_iff_lt_len (b : GapVec α) (i : Nat)
    (h1 : b.gapStart ≤ b.gapEnd) (h2 : b.gapEnd ≤ capacity b) :
    ((get b i).isSome = true ↔ i < len b)
    ∧ ¬(b.gapStart ≤ index_to_raw b i ∧ index_to_raw b i < b.gapEnd) := by
  simp only [capacity] at h2
  refine ⟨?_, ?_⟩
  · simp only [get, index_to_raw, len, gapLen, capacity]
    by_cases hi : i < b.gapStart
    · rw [if_pos hi, if_pos (by omega)]
      constructor
      · intro _; omega
      · intro _; rfl
    · rw [if_neg hi]
      by_cases hr : i + (b.gapEnd - b.gapStart) < b.slots.length
      · rw [if_pos hr]
        constructor
        · intro _; omega
        · intro _; rfl
      · rw [if_neg hr]
        constructor
        · intro hfalse; exact absurd hfalse (by simp)
        · intro hlt; exact absurd hlt (by omega)
  · simp only [index_to_raw, gapLen]
    split_ifs with hi <;> omega

/-- Witness for C10 at the invariant buffer `⟨[some 5], 1, 1⟩` and
index 0. -/
theorem get_some_iff_lt_len_witness :
    ((get (⟨[some 5], 1, 1⟩ : GapVec Nat) 0).isSome = true
      ↔ 0 < len (⟨[some 5], 1, 1⟩ : GapVec Nat))
    ∧ ¬((⟨[some 5], 1, 1⟩ : GapVec Nat).gapStart
          ≤ index_to_raw (⟨[some 5], 1, 1⟩ : GapVec Nat) 0
        ∧ index_to_raw (⟨[some 5], 1, 1⟩ : GapVec Nat) 0
          < (⟨[some 5], 1, 1⟩ : GapVec Nat).gapEnd) :=
  get_some_iff_lt_len (⟨[some 5], 1, 1⟩ : GapVec Nat) 0 (by decide) (by decide)

theorem set_at_length {β : Type} (l1 l2 : List β) (a : β) :
    (l1 ++ l2).set l1.length a = l1 ++ l2.set 0 a := by
  rw [List.set_append, if_neg (lt_irrefl _), Nat.sub_self]

theorem drop_facts {β : Type} (d a : β) (t : List β) :
    ∀ (i : Nat) (l : List β), l.drop i = a :: t →
      i < l.length ∧ l.getD i d = a ∧ l.drop (i + 1) = t := by
  intro i
  induction i with
  | zero =>
    intro l h
    rw [List.drop_zero] at h
    subst h
    exact ⟨by simp, rfl, rfl⟩
  | succ i ih =>
    intro l h
    cases l with
    | nil => simp at h
    | cons x xs =>
      rw [List.drop_succ_cons] at h
      obtain ⟨h1, h2, h3⟩ := ih xs h
      refine ⟨by simpa using Nat.succ_lt_succ h1, by simpa using h2, ?_⟩
      rw [List.drop_succ_cons]
      exact h3

theorem enlarge_gap_tail (l : List α) :
    enlarge_gap (⟨l.map some, l.length, l.length⟩ : GapVec α)
      = ⟨l.map some
            ++ List.replicate ((if l.length * 2 = 0 then 4 else l.length * 2) - l.length) none,
         l.length, if l.length * 2 = 0 then 4 else l.length * 2⟩ := by
  have h1 : (l.map some).take l.length = l.map some := by
    rw [← List.length_map l some, List.take_length]
  have h2 : (l.map some).drop l.length = [] := List.drop_eq_nil_of_le (by simp)
  simp only [enlarge_gap, capacity, List.length_map, Nat.sub_self, Nat.sub_zero]
  rw [h1, h2, List.append_nil]

theorem set_fill_gap (l : List α) (j : Nat) (x : α) :
    (l.map some ++ List.replicate (j + 1) (none : Option α)).set l.length (some x)
      = (l ++ [x]).map some ++ List.replicate j none := by
  rw [List.replicate_succ,
    show l.length = (l.map some).length from (List.length_map l some).symm,
    set_at_length]
  simp [List.map_append]

theorem insert_shape (l : List α) (k : Nat) (x : α) :
    ∃ k2, insert (⟨l.map some ++ List.replicate k none, l.length, l.length + k⟩ : GapVec α) x
      = ⟨(l ++ [x]).map some ++ List.replicate k2 none, l.length + 1, l.length + 1 + k2⟩ := by
  cases k with
  | zero =>
    have hm : l.length < (if l.length * 2 = 0 then 4 else l.length * 2) := by
      rcases Nat.eq_zero_or_pos l.length with h | h
      · simp [h]
      · rw [if_neg (by omega)]
        omega
    obtain ⟨j, hj⟩ : ∃ j, (if l.length * 2 = 0 then 4 else l.length * 2) - l.length = j + 1 :=
      ⟨(if l.length * 2 = 0 then 4 else l.length * 2) - l.length - 1, by omega⟩
    refine ⟨j, ?_⟩
    have hstate : (⟨l.map some ++ List.replicate 0 none, l.length, l.length + 0⟩ : GapVec α)
        = ⟨l.map some, l.length, l.length⟩ := by simp
    rw [hstate, insert, if_pos (by simp [gapLen]), enlarge_gap_tail]
    simp only [hj, set_fill_gap]
    simp only [GapVec.mk.injEq]
    refine ⟨by trivial, by trivial, by omega⟩
  | succ k0 =>
    refine ⟨k0, ?_⟩
    rw [insert, if_neg (by simp [gapLen])]
    simp only [set_fill_gap]
    simp only [GapVec.mk.injEq]
    refine ⟨by trivial, by trivial, by omega⟩

theorem insert_iter_shape : ∀ (xs l : List α) (k : Nat),
    ∃ k2, insert_iter
        (⟨l.map some ++ List.replicate k none, l.length, l.length + k⟩ : GapVec α) xs
      = ⟨(l ++ xs).map some ++ List.replicate k2 none,
         (l ++ xs).length, (l ++ xs).length + k2⟩ := by
  intro xs
  induction xs with
  | nil =>
    intro l k
    exact ⟨k, by simp [insert_iter]⟩
  | cons x xs ih =>
    intro l k
    obtain ⟨k1, h1⟩ := insert_shape l k x
    obtain ⟨k2, h2⟩ := ih (l ++ [x]) k1
    refine ⟨k2, ?_⟩
    have hstep : insert_iter
        (⟨l.map some ++ List.replicate k none, l.length, l.length + k⟩ : GapVec α) (x :: xs)
        = insert_iter
            (insert (⟨l.map some ++ List.replicate k none, l.length, l.length + k⟩ : GapVec α) x)
            xs := rfl
    rw [hstep, h1]
    simpa using h2

theorem removeN_correct : ∀ (ys : List α) (b : GapVec α),
    b.slots.drop b.gapEnd = ys.map some → (removeN ys.length b).1 = ys.map some := by
  intro ys
  induction ys with
  | nil => intro b _; rfl
  | cons y ys ih =>
    intro b h
    rw [List.map_cons] at h
    obtain ⟨hlt, hget, hdrop⟩ := drop_facts none (some y) (ys.map some) b.gapEnd b.slots h
    have hne : ¬(b.gapEnd = capacity b) := by
      simp only [capacity]
      omega
    simp only [List.length_cons, removeN, remove, if_neg hne, hget]
    rw [ih ⟨b.slots, b.gapStart, b.gapEnd + 1⟩ hdrop]
    exact (List.map_cons some y ys).symm

theorem set_position_zero_shape (xs : List α) (k : Nat) (hx : xs ≠ []) :
    set_position
        (⟨xs.map some ++ List.replicate k none, xs.length, xs.length + k⟩ : GapVec α) 0
      = some ⟨(xs.map some ++ List.replicate k none).take k ++ xs.map some, 0, k⟩ := by
  have hn : 0 < xs.length := List.length_pos.mpr hx
  rw [set_position]
  rw [if_neg (by simp only [len, gapLen, capacity, List.length_append, List.length_map,
    List.length_replicate]; omega)]
  rw [if_neg (by omega), if_pos (by simpa using hn)]
  simp only [Option.some.injEq, GapVec.mk.injEq]
  refine ⟨?_, by trivial, by simp only [gapLen]; omega⟩
  simp only [copyWithin, Nat.sub_zero, List.drop_zero, gapLen]
  have hdst : xs.length + k - xs.length = k := by omega
  rw [hdst]
  have hmid : ((xs.map some ++ List.replicate k (none : Option α))
      ++ List.replicate xs.length none).take xs.length = xs.map some := by
    rw [List.append_assoc]
    exact List.take_left' (by simp)
  have hnil : (xs.map some ++ List.replicate k (none : Option α)).drop (k + xs.length) = [] :=
    List.drop_eq_nil_of_le
      (by simp only [List.length_append, List.length_map, List.length_replicate]; omega)
  rw [hmid, hnil, List.append_nil]

/-- C7: round trip. Inserting the elements of any list `xs` in order into
an empty buffer, then moving the cursor to 0, then removing
`xs.length` times returns exactly the original elements in their original
order (each wrapped in `some`, meaning every removed slot was a live
initialized element). The `Option.map` accounts for `set_position`
returning a state rather than panicking. -/
theorem insert_setpos_remove_roundtrip (xs : List α) :
    (set_position (insert_iter (new : GapVec α) xs) 0).map
        (fun b => (removeN xs.length b).1)
      = some (xs.map some) := by
  rcases heq : xs with _ | ⟨y, ys⟩
  · rfl
  · rw [← heq]
    have hx : xs ≠ [] := by rw [heq]; simp
    obtain ⟨k, hB⟩ := insert_iter_shape xs [] 0
    have hB2 : insert_iter (new : GapVec α) xs
        = ⟨xs.map some ++ List.replicate k none, xs.length, xs.length + k⟩ := by
      simpa using hB
    rw [hB2, set_position_zero_shape xs k hx, Option.map_some']
    have hdrop : ((xs.map some ++ List.replicate k (none : Option α)).take k
        ++ xs.map some).drop k = xs.map some := by
      apply List.drop_left'
      simp only [List.length_take, List.length_append, List.length_map,
        List.length_replicate]
      omega
    exact congrArg some (removeN_correct xs
      ⟨(xs.map some ++ List.replicate k none).take k ++ xs.map some, 0, k⟩ hdrop)

end GapVec
